import Mathlib

set_option maxRecDepth 100000

/-!
Shallow embedding of the `rendiff` image-diffing library
(`src/rendiff/src/{diff,image,histogram,threshold,visualize}.rs`).

Machine integers (`u8`, `u32`, `usize`) are modelled as `Nat`, with `% 2^w`
written explicitly at the one place the source truncates (`luma as u8`).
Code that can panic is modelled as returning `Option`: a `none` result means
the corresponding Rust execution panics.

Images (`imgref::ImgRef<[u8; 4]>`) are modelled as a structure carrying
`width`, `height` and a row-major pixel accessor `pix x y` (the buffer entry
at index `y * stride + x`); `pixels().len()` is `width * height` by the
`imgref` exact-size contract.
-/

namespace Rendiff

/-- `RgbaPixel = [u8; 4]`: channels indexed `0..3` are `r`, `g`, `b`, `a`. -/
structure Rgba where
  r : Nat
  g : Nat
  b : Nat
  a : Nat
deriving DecidableEq

/-- `u8::abs_diff`. -/
def abs_diff (x y : Nat) : Nat := max x y - min x y

/-- `image.rs`: `rgba_to_luma`.  The `% 256` models the `luma as u8` truncation
(which the source notes is a no-op for byte-range inputs via `debug_assert`). -/
def rgba_to_luma (p : Rgba) : Nat :=
  ((2126 * p.r + 7152 * p.g + 722 * p.b) / 10000) % 256

/-- `diff.rs`: `pixel_diff`. -/
def pixel_diff (a b : Rgba) : Nat :=
  let r_diff := abs_diff a.r b.r
  let g_diff := abs_diff a.g b.g
  let b_diff := abs_diff a.b b.b
  let a_diff := abs_diff a.a b.a
  let color_diff := rgba_to_luma { r := r_diff, g := g_diff, b := b_diff, a := 255 }
  min (max color_diff a_diff) 255

/-- `imgref::ImgRef<'_, RgbaPixel>`: dimensions plus row-major pixel access. -/
structure Image where
  width : Nat
  height : Nat
  pix : Nat → Nat → Rgba

/-- `diff.rs`: `dimensions`, the `[usize; 2]` of width and height. -/
def dimensions (image : Image) : Nat × Nat := (image.width, image.height)

/-- `image.pixels().len()`: the `imgref` exact-size contract makes this `width * height`. -/
def pixelCount (image : Image) : Nat := image.width * image.height

/-- An `ImgVec<u8>` magnitude map, as produced by `half_diff`. -/
structure MagMap where
  width : Nat
  height : Nat
  mag : Nat → Nat → Nat

/-- The nine `pixel_diff` values of a 3×3 neighborhood of `want` whose top-left
corner is `(x, y)`, compared against one pixel of `have`; `sub_image(x, y, 3, 3)`
followed by `pixels()` iterates rows outer, columns inner. -/
def neighborhoodDiffs (have_pixel : Rgba) (want : Image) (x y : Nat) : List Nat :=
  (List.range 3).flatMap fun dy =>
    (List.range 3).map fun dx => pixel_diff have_pixel (want.pix (x + dx) (y + dy))

/-- The body of `half_diff`'s loop: minimum `pixel_diff` between `have`'s pixel at
interior position `(x, y)` (untrimmed coordinates `(x+1, y+1)`) and the 3×3
neighborhood of `want` with top-left `(x, y)`.  `.min()` on a Rust iterator is
`List.min?`; the `.getD 255` models `.expect(..)`, never taken since the
neighborhood list always has nine elements. -/
def mag_at (hv wt : Image) (x y : Nat) : Nat :=
  ((neighborhoodDiffs (hv.pix (x + 1) (y + 1)) wt x y).min?).getD 255

/-- `diff.rs`: `half_diff`.  `have.sub_image(1, 1, have.width() - 2, have.height() - 2)`
performs `usize` subtractions that overflow (panic) when a dimension is below 2;
that panic is modelled by `none`.  The `imgref` container construction itself is
modelled as total. -/
def half_diff (hv wt : Image) : Option MagMap :=
  if hv.width < 2 ∨ hv.height < 2 then none
  else some { width := hv.width - 2, height := hv.height - 2, mag := fun x y => mag_at hv wt x y }

/-- The flat row-major list of `max(hd1[(x,y)], hd2[(x,y)])` built by `diff`'s
`flat_map` over `0..hd1.height()` and `0..hd1.width()`. -/
def combinedList (hd1 hd2 : MagMap) : List Nat :=
  (List.range hd1.height).flatMap fun y =>
    (List.range hd1.width).map fun x => max (hd1.mag x y) (hd2.mag x y)

/-- The histogram built by `for diff_value in raw_diff_image.pixels() { histogram[...] += 1 }`:
bin `m` holds the number of occurrences of `m` in the flat pixel list. -/
def histogramOfList (l : List Nat) : Nat → Nat := fun m => l.count m

/-- `histogram.rs`: `Histogram::max_difference`, `rposition` of the last nonzero
bin among indices `0..255`, or `0` when all bins are zero. -/
def max_difference (h : Nat → Nat) : Nat :=
  (List.range 256).foldl (fun acc i => if h i ≠ 0 then i else acc) 0

/-- `visualize.rs`: `(f64::from(raw_diff_value) / max_difference * 255.0) as u8`.
The `f64` arithmetic is modelled exactly on the subdomain every theorem below
evaluates it on: for `raw = 0` the quotient is `0.0` (maxd > 0) or NaN (`0.0/0.0`),
and a Rust float→int `as` cast sends both `0.0` and NaN to `0`; for `raw > 0` and
`maxd = 0` the quotient is `+∞`, which saturates to `255`.  For `raw > 0 < maxd`
the truncated rational value is used (`f64` rounding can deviate from it; no
theorem in this file depends on that branch). -/
def amplified_difference (raw maxd : Nat) : Nat :=
  if raw = 0 then 0
  else if maxd = 0 then 255
  else min 255 (raw * 255 / maxd)

/-- `visualize.rs`: `visualize`. -/
def visualize (reference : Image) (raw_diff_image : MagMap) (histogram : Nat → Nat) : Image :=
  { width := raw_diff_image.width
    height := raw_diff_image.height
    pix := fun x y =>
      { r := rgba_to_luma (reference.pix (x + 1) (y + 1)) / 3
        g := amplified_difference (raw_diff_image.mag x y) (max_difference histogram)
        b := amplified_difference (raw_diff_image.mag x y) (max_difference histogram)
        a := 255 } }

/-- `diff.rs`: `Difference`, with the histogram as its 256-entry bin table
(function from bin index to count; only indices `0..255` are ever populated). -/
structure Difference where
  histogram : Nat → Nat
  diff_image : Option Image

/-- `diff.rs`: `diff`.  The size-mismatch branch sets bin `255` of an all-zero
histogram to the larger pixel count and returns no diff image; otherwise both
directional scans run (`none` if either panics, see `half_diff`), are combined
pointwise by `max`, and feed the histogram and the visualization. -/
def diff (actual expected : Image) : Option Difference :=
  if dimensions expected ≠ dimensions actual then
    some { histogram := fun m => if m = 255 then max (pixelCount expected) (pixelCount actual) else 0
           diff_image := none }
  else
    match half_diff expected actual, half_diff actual expected with
    | some hd1, some hd2 =>
      some { histogram := histogramOfList (combinedList hd1 hd2)
             diff_image := some (visualize expected
               { width := hd1.width, height := hd1.height
                 mag := fun x y => max (hd1.mag x y) (hd2.mag x y) }
               (histogramOfList (combinedList hd1 hd2))) }
    | _, _ => none

/-- Sum of histogram bins `lo..(hi-1)`, i.e. the Rust slice sum `histogram.0[lo..hi]`. -/
def sumBins (h : Nat → Nat) (lo hi : Nat) : Nat :=
  ((List.range (hi - lo)).map fun i => h (lo + i)).sum

/-- `threshold.rs`: sorted-map insertion; `BTreeMap<u8, usize>` is modelled as an
ascending association list, insertion overwriting an existing key. -/
def btreeInsert : List (Nat × Nat) → Nat → Nat → List (Nat × Nat)
  | [], k, v => [(k, v)]
  | (k', v') :: rest, k, v =>
    if k < k' then (k, v) :: (k', v') :: rest
    else if k = k' then (k, v) :: rest
    else (k', v') :: btreeInsert rest k v

/-- `threshold.rs`: the iterator of `Threshold::new` — assert each key positive
(panic, modelled `none`, otherwise) while collecting into the map. -/
def Threshold_new_go (m : List (Nat × Nat)) : List (Nat × Nat) → Option (List (Nat × Nat))
  | [] => some m
  | (k, v) :: rest => if 0 < k then Threshold_new_go (btreeInsert m k v) rest else none

/-- `threshold.rs`: `Threshold::new`. -/
def Threshold_new (data : List (Nat × Nat)) : Option (List (Nat × Nat)) :=
  Threshold_new_go [] data

/-- `threshold.rs`: the band loop of `Threshold::allows`, over the ascending
`(level, count)` entries, carrying `checked_up_to`; after the last band the
remaining bins up to 255 must all be empty. -/
def Threshold_allows_go (h : Nat → Nat) : List (Nat × Nat) → Nat → Bool
  | [], checked_up_to => sumBins h checked_up_to 256 == 0
  | (level, count) :: rest, checked_up_to =>
    if count < sumBins h checked_up_to (level + 1) then false
    else Threshold_allows_go h rest (level + 1)

/-- `threshold.rs`: `Threshold::allows`, starting at `checked_up_to = 1` so that
magnitude-0 bins are never counted. -/
def Threshold_allows (t : List (Nat × Nat)) (h : Nat → Nat) : Bool :=
  Threshold_allows_go h t 1

/-- Declarative reading of the threshold policy (following the specification's
wording): with `prev` the previous band's level (initially 0), each band
`(level, count)` must have at most `count` differences in the half-open
magnitude range `(prev, level]`, and above the last band everything up to
magnitude 255 must be empty. -/
def bandsAccept (h : Nat → Nat) : Nat → List (Nat × Nat) → Prop
  | prev, [] => sumBins h (prev + 1) 256 = 0
  | prev, (level, count) :: rest =>
    sumBins h (prev + 1) (level + 1) ≤ count ∧ bandsAccept h level rest

/-- The histogram `{0: 1000, 1: 30, 10: 5, 50: 1, 100: 1}` used by the
threshold examples (`H1` in `threshold.rs`'s tests). -/
def exampleHistogram : Nat → Nat := fun m =>
  if m = 0 then 1000
  else if m = 1 then 30
  else if m = 10 then 5
  else if m = 50 then 1
  else if m = 100 then 1
  else 0

/-- A well-formed 1×1 image. -/
def onePixelImage : Image := { width := 1, height := 1, pix := fun _ _ => ⟨0, 0, 0, 255⟩ }

/-- A well-formed 1×2 image. -/
def twoPixelImage : Image := { width := 1, height := 2, pix := fun _ _ => ⟨0, 0, 0, 255⟩ }

/-- A well-formed 3×3 image. -/
def threeByThree : Image := { width := 3, height := 3, pix := fun _ _ => ⟨7, 8, 9, 255⟩ }

/-- Placeholder `Difference` for `Option.getD` in closed witness statements. -/
def defaultDifference : Difference := { histogram := fun _ => 0, diff_image := none }

/-- Placeholder `MagMap` for `Option.getD` in closed witness statements. -/
def defaultMagMap : MagMap := { width := 0, height := 0, mag := fun _ _ => 0 }

/-- Sum of the 256 histogram bins. -/
def histSum (h : Nat → Nat) : Nat := (Finset.range 256).sum h

/-! ### Helper lemmas -/

theorem abs_diff_self (x : Nat) : abs_diff x x = 0 := by
  simp [abs_diff]

theorem abs_diff_le {x y n : Nat} (hx : x ≤ n) (hy : y ≤ n) : abs_diff x y ≤ n := by
  unfold abs_diff
  omega

theorem pixel_diff_le (a b : Rgba) : pixel_diff a b ≤ 255 :=
  Nat.min_le_right _ _

theorem pixel_diff_self (p : Rgba) : pixel_diff p p = 0 := by
  simp [pixel_diff, abs_diff_self, rgba_to_luma]

theorem dims_eq_iff {a e : Image} :
    dimensions e = dimensions a ↔ e.width = a.width ∧ e.height = a.height := by
  simp [dimensions, Prod.ext_iff]

theorem mem_neighborhoodDiffs {p : Rgba} {wt : Image} {x y v : Nat} :
    v ∈ neighborhoodDiffs p wt x y ↔
      ∃ dx dy, dx < 3 ∧ dy < 3 ∧ v = pixel_diff p (wt.pix (x + dx) (y + dy)) := by
  simp only [neighborhoodDiffs, List.mem_flatMap, List.mem_map, List.mem_range]
  constructor
  · rintro ⟨dy, hdy, dx, hdx, rfl⟩
    exact ⟨dx, dy, hdx, hdy, rfl⟩
  · rintro ⟨dx, dy, hdx, hdy, rfl⟩
    exact ⟨dy, hdy, dx, hdx, rfl⟩

theorem neighborhoodDiffs_ne_nil (p : Rgba) (wt : Image) (x y : Nat) :
    neighborhoodDiffs p wt x y ≠ [] := by
  intro hnil
  have : pixel_diff p (wt.pix (x + 0) (y + 0)) ∈ neighborhoodDiffs p wt x y :=
    mem_neighborhoodDiffs.mpr ⟨0, 0, by omega, by omega, rfl⟩
  rw [hnil] at this
  cases this

theorem min?_getD_spec {l : List Nat} (hne : l ≠ []) :
    l.min?.getD 255 ∈ l ∧ ∀ b ∈ l, l.min?.getD 255 ≤ b := by
  cases hl : l.min? with
  | none => exact absurd (List.min?_eq_none_iff.mp hl) hne
  | some a =>
    have := List.min?_eq_some_iff'.mp hl
    simpa using this

theorem mag_at_mem (hv wt : Image) (x y : Nat) :
    mag_at hv wt x y ∈ neighborhoodDiffs (hv.pix (x + 1) (y + 1)) wt x y :=
  (min?_getD_spec (neighborhoodDiffs_ne_nil _ _ _ _)).1

theorem mag_at_le (hv wt : Image) {x y v : Nat}
    (hm : v ∈ neighborhoodDiffs (hv.pix (x + 1) (y + 1)) wt x y) :
    mag_at hv wt x y ≤ v :=
  (min?_getD_spec (neighborhoodDiffs_ne_nil _ _ _ _)).2 v hm

theorem mag_at_le_255 (hv wt : Image) (x y : Nat) : mag_at hv wt x y ≤ 255 := by
  obtain ⟨dx, dy, -, -, hv'⟩ := mem_neighborhoodDiffs.mp (mag_at_mem hv wt x y)
  rw [hv']
  exact pixel_diff_le _ _

theorem mag_at_self (X : Image) (x y : Nat) : mag_at X X x y = 0 := by
  have hmem : pixel_diff (X.pix (x + 1) (y + 1)) (X.pix (x + 1) (y + 1)) ∈
      neighborhoodDiffs (X.pix (x + 1) (y + 1)) X x y :=
    mem_neighborhoodDiffs.mpr ⟨1, 1, by omega, by omega, rfl⟩
  have h := mag_at_le X X hmem
  rw [pixel_diff_self] at h
  omega

theorem half_diff_eq_some (hv wt : Image) (h2w : 2 ≤ hv.width) (h2h : 2 ≤ hv.height) :
    half_diff hv wt =
      some { width := hv.width - 2, height := hv.height - 2
             mag := fun x y => mag_at hv wt x y } := by
  rw [half_diff, if_neg (by omega)]

theorem diff_of_dims_ne (actual expected : Image)
    (h : dimensions expected ≠ dimensions actual) :
    diff actual expected =
      some { histogram := fun m =>
               if m = 255 then max (pixelCount expected) (pixelCount actual) else 0
             diff_image := none } := by
  rw [diff, if_pos h]

theorem diff_of_dims_eq (actual expected : Image) (m1 m2 : MagMap)
    (h : dimensions expected = dimensions actual)
    (h1 : half_diff expected actual = some m1)
    (h2 : half_diff actual expected = some m2) :
    diff actual expected =
      some { histogram := histogramOfList (combinedList m1 m2)
             diff_image := some (visualize expected
               { width := m1.width, height := m1.height
                 mag := fun x y => max (m1.mag x y) (m2.mag x y) }
               (histogramOfList (combinedList m1 m2))) } := by
  rw [diff, if_neg (not_not_intro h), h1, h2]

theorem diff_none_of_small (actual expected : Image)
    (h : dimensions expected = dimensions actual)
    (hsmall : expected.width < 2 ∨ expected.height < 2) :
    diff actual expected = none := by
  obtain ⟨hw, hh⟩ := dims_eq_iff.mp h
  have hsmall2 : actual.width < 2 ∨ actual.height < 2 := by omega
  rw [diff, if_neg (not_not_intro h), half_diff, if_pos hsmall, half_diff, if_pos hsmall2]

theorem mem_combinedList {m1 m2 : MagMap} {v : Nat} :
    v ∈ combinedList m1 m2 ↔
      ∃ x y, x < m1.width ∧ y < m1.height ∧ v = max (m1.mag x y) (m2.mag x y) := by
  simp only [combinedList, List.mem_flatMap, List.mem_map, List.mem_range]
  constructor
  · rintro ⟨y, hy, x, hx, rfl⟩
    exact ⟨x, y, hx, hy, rfl⟩
  · rintro ⟨x, y, hx, hy, rfl⟩
    exact ⟨y, hy, x, hx, rfl⟩

theorem combinedList_swap (m1 m2 : MagMap)
    (hw : m1.width = m2.width) (hh : m1.height = m2.height) :
    combinedList m1 m2 = combinedList m2 m1 := by
  unfold combinedList
  rw [hw, hh]
  congr 1
  funext y
  congr 1
  funext x
  exact Nat.max_comm _ _

theorem combinedList_length (m1 m2 : MagMap) :
    (combinedList m1 m2).length = m1.width * m1.height := by
  unfold combinedList
  rw [List.length_flatMap]
  simp only [Function.comp_def, List.length_map, List.length_range, List.map_const',
    List.sum_replicate, smul_eq_mul]
  exact Nat.mul_comm _ _

theorem histSum_count (l : List Nat) (hb : ∀ v ∈ l, v < 256) :
    histSum (histogramOfList l) = l.length := by
  induction l with
  | nil => simp [histSum, histogramOfList]
  | cons a t ih =>
    have ha : a < 256 := hb a (List.mem_cons_self a t)
    have ht : ∀ v ∈ t, v < 256 := fun v hv => hb v (List.mem_cons_of_mem a hv)
    have hsplit : histSum (histogramOfList (a :: t)) =
        histSum (histogramOfList t) + (Finset.range 256).sum fun m => if m = a then 1 else 0 := by
      unfold histSum histogramOfList
      rw [← Finset.sum_add_distrib]
      refine Finset.sum_congr rfl fun m _ => ?_
      simp only [List.count_cons]
      rcases eq_or_ne m a with hma | hma
      · simp [hma]
      · simp [hma, Ne.symm hma]
    rw [hsplit, ih ht, Finset.sum_ite_eq' (Finset.range 256) a fun _ => 1]
    simp [Finset.mem_range.mpr ha]

theorem Threshold_new_go_isSome (m data : List (Nat × Nat)) :
    (Threshold_new_go m data).isSome = true ↔ ∀ kv ∈ data, 0 < kv.1 := by
  induction data generalizing m with
  | nil => simp [Threshold_new_go]
  | cons kv rest ih =>
    obtain ⟨k, v⟩ := kv
    by_cases hk : 0 < k
    · simp [Threshold_new_go, hk, ih]
    · simp [Threshold_new_go, hk]

theorem Threshold_allows_go_iff (h : Nat → Nat) (t : List (Nat × Nat)) :
    ∀ prev, Threshold_allows_go h t (prev + 1) = true ↔ bandsAccept h prev t := by
  induction t with
  | nil =>
    intro prev
    simp [Threshold_allows_go, bandsAccept]
  | cons kv rest ih =>
    intro prev
    obtain ⟨level, count⟩ := kv
    by_cases hc : count < sumBins h (prev + 1) (level + 1)
    · rw [show Threshold_allows_go h ((level, count) :: rest) (prev + 1) = false from by
        simp [Threshold_allows_go, hc]]
      simp only [bandsAccept]
      constructor
      · intro hf
        exact absurd hf (by simp)
      · rintro ⟨hle, -⟩
        omega
    · rw [show Threshold_allows_go h ((level, count) :: rest) (prev + 1) =
          Threshold_allows_go h rest (level + 1) from by simp [Threshold_allows_go, hc]]
      rw [ih level]
      exact (and_iff_right (Nat.le_of_not_lt hc)).symm

/-! ### Claim theorems -/

/-- C9: `Threshold::new` fails fast on a zero magnitude: for every input list of
(magnitude, allowance) pairs, construction panics (modelled `none`) precisely
unless every pair's magnitude is strictly positive, in which case a `Threshold`
is returned normally. -/
theorem Threshold_new_positive_magnitudes (data : List (Nat × Nat)) :
    (Threshold_new data).isSome = true ↔ ∀ kv ∈ data, 0 < kv.1 :=
  Threshold_new_go_isSome [] data

theorem Threshold_new_positive_magnitudes_witness :
    (Threshold_new [(1, 30), (10, 5)]).isSome = true :=
  (Threshold_new_positive_magnitudes [(1, 30), (10, 5)]).mpr (by decide)

/-- C1: `Threshold::allows` processes bands in ascending order, summing the
histogram over each half-open magnitude range `(previous level, level]`
(magnitude 0 never counted), rejecting as soon as a band's sum exceeds its
allowance, and finally rejecting any nonzero count above the highest band;
moreover the threshold `{(1,30),(10,5),(50,1),(100,1)}` accepts the histogram
`{0:1000, 1:30, 10:5, 50:1, 100:1}` while `{(1,30),(10,5),(100,1)}` rejects it. -/
theorem Threshold_allows_band_semantics :
    (∀ (t : List (Nat × Nat)) (h : Nat → Nat),
      Threshold_allows t h = true ↔ bandsAccept h 0 t) ∧
    (Threshold_new [(1, 30), (10, 5), (50, 1), (100, 1)]).map
        (fun t => Threshold_allows t exampleHistogram) = some true ∧
    (Threshold_new [(1, 30), (10, 5), (100, 1)]).map
        (fun t => Threshold_allows t exampleHistogram) = some false :=
  ⟨fun t h => Threshold_allows_go_iff h t 0, by decide, by decide⟩

theorem Threshold_allows_band_semantics_witness :
    Threshold_allows [(2, 0)] exampleHistogram = true ↔
      bandsAccept exampleHistogram 0 [(2, 0)] :=
  Threshold_allows_band_semantics.1 [(2, 0)] exampleHistogram

/-- C5: for byte-valued RGBA pixels, `pixel_diff` equals the maximum of the
alpha-channel absolute difference and the luma of the per-channel absolute
differences (weighted sum `2126/7152/722` divided by 10000), and the result
lies in `[0, 255]`. -/
theorem pixel_diff_luma_alpha_max (a b : Rgba)
    (har : a.r ≤ 255) (hag : a.g ≤ 255) (hab : a.b ≤ 255) (haa : a.a ≤ 255)
    (hbr : b.r ≤ 255) (hbg : b.g ≤ 255) (hbb : b.b ≤ 255) (hba : b.a ≤ 255) :
    pixel_diff a b =
      max ((2126 * abs_diff a.r b.r + 7152 * abs_diff a.g b.g + 722 * abs_diff a.b b.b) / 10000)
        (abs_diff a.a b.a) ∧
    pixel_diff a b ≤ 255 := by
  refine ⟨?_, pixel_diff_le a b⟩
  have hdr : abs_diff a.r b.r ≤ 255 := abs_diff_le har hbr
  have hdg : abs_diff a.g b.g ≤ 255 := abs_diff_le hag hbg
  have hdb : abs_diff a.b b.b ≤ 255 := abs_diff_le hab hbb
  have hda : abs_diff a.a b.a ≤ 255 := abs_diff_le haa hba
  have hsum : 2126 * abs_diff a.r b.r + 7152 * abs_diff a.g b.g + 722 * abs_diff a.b b.b
      ≤ 2550000 := by omega
  have hluma : (2126 * abs_diff a.r b.r + 7152 * abs_diff a.g b.g + 722 * abs_diff a.b b.b)
      / 10000 ≤ 255 :=
    le_trans (Nat.div_le_div_right hsum) (by norm_num)
  simp only [pixel_diff, rgba_to_luma]
  rw [Nat.mod_eq_of_lt (by omega)]
  exact Nat.min_eq_left (by omega)

theorem pixel_diff_luma_alpha_max_witness :
    pixel_diff ⟨10, 20, 30, 40⟩ ⟨60, 20, 30, 200⟩ =
      max ((2126 * abs_diff 10 60 + 7152 * abs_diff 20 20 + 722 * abs_diff 30 30) / 10000)
        (abs_diff 40 200) ∧
    pixel_diff ⟨10, 20, 30, 40⟩ ⟨60, 20, 30, 200⟩ ≤ 255 :=
  pixel_diff_luma_alpha_max ⟨10, 20, 30, 40⟩ ⟨60, 20, 30, 200⟩
    (by decide) (by decide) (by decide) (by decide)
    (by decide) (by decide) (by decide) (by decide)

/-- C10: a pixel distance of 0 does not imply pixel equality: unequal pixels with
distance 0 exist, and in particular any two pixels agreeing on green, blue and
alpha whose red channels differ by 1 to 4 are unequal yet at distance 0
(since `2126 * dr < 10000` truncates to a zero luma difference). -/
theorem pixel_diff_zero_nontrivial :
    (∃ a b : Rgba, a ≠ b ∧ pixel_diff a b = 0) ∧
    ∀ a b : Rgba, a.g = b.g → a.b = b.b → a.a = b.a →
      1 ≤ abs_diff a.r b.r → abs_diff a.r b.r ≤ 4 →
      pixel_diff a b = 0 ∧ a ≠ b := by
  constructor
  · exact ⟨⟨1, 0, 0, 0⟩, ⟨0, 0, 0, 0⟩, by decide, by decide⟩
  · intro a b hg hb ha h1 h4
    constructor
    · have hdiv : (2126 * abs_diff a.r b.r + 7152 * 0 + 722 * 0) / 10000 = 0 :=
        Nat.div_eq_of_lt (by omega)
      simp only [pixel_diff, rgba_to_luma, hg, hb, ha, abs_diff_self]
      rw [hdiv]
      simp
    · intro heq
      rw [heq, abs_diff_self] at h1
      omega

theorem pixel_diff_zero_nontrivial_witness :
    pixel_diff ⟨1, 0, 0, 0⟩ ⟨0, 0, 0, 0⟩ = 0 ∧ (⟨1, 0, 0, 0⟩ : Rgba) ≠ ⟨0, 0, 0, 0⟩ :=
  pixel_diff_zero_nontrivial.2 ⟨1, 0, 0, 0⟩ ⟨0, 0, 0, 0⟩ rfl rfl rfl (by decide) (by decide)

/-- C2: whenever the two input images' dimensions differ, `diff` returns a
`Difference` whose histogram has bin 255 equal to the larger of the two pixel
counts and every other bin (bin 0 included) zero, with no diff image. -/
theorem diff_size_mismatch_maximal (actual expected : Image)
    (hne : dimensions actual ≠ dimensions expected) :
    ∃ d, diff actual expected = some d ∧ d.diff_image = none ∧
      d.histogram 255 = max (pixelCount expected) (pixelCount actual) ∧
      ∀ m, m ≠ 255 → d.histogram m = 0 := by
  refine ⟨_, diff_of_dims_ne actual expected (Ne.symm hne), rfl, ?_, ?_⟩
  · simp
  · intro m hm
    simp [hm]

theorem diff_size_mismatch_maximal_witness :
    ((diff onePixelImage twoPixelImage).getD defaultDifference).histogram 255 = 2 := by
  obtain ⟨d, hd, -, h255, -⟩ :=
    diff_size_mismatch_maximal onePixelImage twoPixelImage (by decide)
  rw [hd, Option.getD_some, h255]
  decide

/-- C3, amended: `diff` returns a result whenever the dimensions differ, and
whenever they are equal with width ≥ 3 and height ≥ 3.  (As the counterexample
`diff_panics_on_1x1` shows, the original claim's totality for equal dimensions
≤ 2 fails: `half_diff` subtracts 2 from the `usize` width, which underflows.) -/
theorem diff_total_on_supported_sizes (actual expected : Image)
    (h : dimensions actual ≠ dimensions expected ∨
      (dimensions actual = dimensions expected ∧ 3 ≤ actual.width ∧ 3 ≤ actual.height)) :
    (diff actual expected).isSome = true := by
  rcases h with hne | ⟨heq, hw, hh⟩
  · rw [diff_of_dims_ne actual expected (Ne.symm hne)]
    rfl
  · obtain ⟨hew, heh⟩ := dims_eq_iff.mp heq.symm
    rw [diff_of_dims_eq actual expected _ _ heq.symm
      (half_diff_eq_some expected actual (by omega) (by omega))
      (half_diff_eq_some actual expected (by omega) (by omega))]
    rfl

theorem diff_total_on_supported_sizes_witness :
    (diff threeByThree threeByThree).isSome = true :=
  diff_total_on_supported_sizes threeByThree threeByThree (Or.inr ⟨rfl, by decide, by decide⟩)

/-- C3 counterexample: on a pair of well-formed 1×1 images of equal dimensions,
`diff` does not return a `Difference`: `half_diff` evaluates
`have.width() - 2 = 1 - 2` on `usize`, which overflows and panics (modelled by
`none`), so `diff` is not total for equal dimensions with width ≤ 2 or
height ≤ 2 as claimed. -/
theorem diff_panics_on_1x1 : diff onePixelImage onePixelImage = none := rfl

/-- C4: for equal dimensions at least 3×3, `half_diff` returns a magnitude map of
dimensions `(width-2) × (height-2)` whose entry at interior position `(x, y)` is
the minimum, over the nine pixels of `want`'s 3×3 window with top-left `(x, y)`
in untrimmed coordinates, of the pixel distance to `have`'s interior pixel
(untrimmed coordinates `(x+1, y+1)`): it is a lower bound of the nine distances
and is attained by one of them. -/
theorem half_diff_neighborhood_minimum (hv wt : Image)
    (hw : 3 ≤ hv.width) (hh : 3 ≤ hv.height)
    (hew : wt.width = hv.width) (heh : wt.height = hv.height) :
    ∃ m, half_diff hv wt = some m ∧ m.width = hv.width - 2 ∧ m.height = hv.height - 2 ∧
      ∀ x y, x < hv.width - 2 → y < hv.height - 2 →
        (∀ dx dy, dx < 3 → dy < 3 →
          m.mag x y ≤ pixel_diff (hv.pix (x + 1) (y + 1)) (wt.pix (x + dx) (y + dy))) ∧
        ∃ dx dy, dx < 3 ∧ dy < 3 ∧
          m.mag x y = pixel_diff (hv.pix (x + 1) (y + 1)) (wt.pix (x + dx) (y + dy)) := by
  refine ⟨_, half_diff_eq_some hv wt (by omega) (by omega), rfl, rfl, ?_⟩
  intro x y _ _
  constructor
  · intro dx dy hdx hdy
    exact mag_at_le hv wt (mem_neighborhoodDiffs.mpr ⟨dx, dy, hdx, hdy, rfl⟩)
  · obtain ⟨dx, dy, hdx, hdy, hval⟩ := mem_neighborhoodDiffs.mp (mag_at_mem hv wt x y)
    exact ⟨dx, dy, hdx, hdy, hval⟩

theorem half_diff_neighborhood_minimum_witness :
    ((half_diff threeByThree threeByThree).getD defaultMagMap).width = 1 := by
  obtain ⟨m, hm, hwidth, -, -⟩ :=
    half_diff_neighborhood_minimum threeByThree threeByThree (by decide) (by decide) rfl rfl
  rw [hm, Option.getD_some, hwidth]
  decide

/-- C6: for any pair of images on which `diff` returns (in either order), the two
histograms agree — on the size-mismatch path because `max` of the pixel counts is
symmetric, and on the equal-dimension path because the two directional magnitude
maps are combined by pointwise `max`. -/
theorem diff_histogram_symmetric (A B : Image) (d1 d2 : Difference)
    (h1 : diff A B = some d1) (h2 : diff B A = some d2) :
    d1.histogram = d2.histogram := by
  by_cases heq : dimensions B = dimensions A
  · by_cases hsmall : B.width < 2 ∨ B.height < 2
    · rw [diff_none_of_small A B heq hsmall] at h1
      cases h1
    · push_neg at hsmall
      obtain ⟨hbw, hbh⟩ := dims_eq_iff.mp heq
      have hAw : 2 ≤ A.width := by omega
      have hAh : 2 ≤ A.height := by omega
      rw [diff_of_dims_eq A B _ _ heq
        (half_diff_eq_some B A hsmall.1 hsmall.2)
        (half_diff_eq_some A B hAw hAh)] at h1
      rw [diff_of_dims_eq B A _ _ heq.symm
        (half_diff_eq_some A B hAw hAh)
        (half_diff_eq_some B A hsmall.1 hsmall.2)] at h2
      injection h1 with h1
      injection h2 with h2
      subst h1
      subst h2
      show histogramOfList _ = histogramOfList _
      rw [combinedList_swap
        { width := B.width - 2, height := B.height - 2, mag := fun x y => mag_at B A x y }
        { width := A.width - 2, height := A.height - 2, mag := fun x y => mag_at A B x y }
        (by simp [hbw]) (by simp [hbh])]
  · rw [diff_of_dims_ne A B heq] at h1
    rw [diff_of_dims_ne B A (Ne.symm heq)] at h2
    injection h1 with h1
    injection h2 with h2
    subst h1
    subst h2
    funext mval
    by_cases hm : mval = 255 <;> simp [hm, Nat.max_comm]

theorem diff_histogram_symmetric_witness :
    ((diff onePixelImage twoPixelImage).getD defaultDifference).histogram =
      ((diff twoPixelImage onePixelImage).getD defaultDifference).histogram :=
  diff_histogram_symmetric onePixelImage twoPixelImage _ _ rfl rfl

/-- C7: whenever `diff X X` returns, its histogram is zero at every magnitude
`≥ 1` (all mass at magnitude 0), and its visualization has the amplified green
and blue channels equal to 0 at every position. -/
theorem diff_self_identity (X : Image) (d : Difference) (hd : diff X X = some d) :
    (∀ m, 1 ≤ m → d.histogram m = 0) ∧
    ∀ vis, d.diff_image = some vis → ∀ x y, (vis.pix x y).g = 0 ∧ (vis.pix x y).b = 0 := by
  by_cases hsmall : X.width < 2 ∨ X.height < 2
  · rw [diff_none_of_small X X rfl hsmall] at hd
    cases hd
  · push_neg at hsmall
    rw [diff_of_dims_eq X X _ _ rfl
      (half_diff_eq_some X X hsmall.1 hsmall.2)
      (half_diff_eq_some X X hsmall.1 hsmall.2)] at hd
    injection hd with hd
    subst hd
    constructor
    · intro m hm
      apply List.count_eq_zero.mpr
      intro hmem
      obtain ⟨x, y, -, -, hval⟩ := mem_combinedList.mp hmem
      have hval2 : m = max (mag_at X X x y) (mag_at X X x y) := hval
      rw [mag_at_self, Nat.max_self] at hval2
      omega
    · rintro vis hvis x y
      injection hvis with hvis
      subst hvis
      constructor <;> simp [visualize, mag_at_self, amplified_difference]

theorem diff_self_identity_witness :
    ((diff threeByThree threeByThree).getD defaultDifference).histogram 5 = 0 :=
  (diff_self_identity threeByThree ((diff threeByThree threeByThree).getD defaultDifference)
    rfl).1 5 (by decide)

/-- C8: the 256 histogram bins of any `diff` result sum to the number of compared
pixel positions: `(width-2) * (height-2)` for equal dimensions, and the larger
of the two pixel counts on the size-mismatch path. -/
theorem diff_histogram_mass (actual expected : Image) (d : Difference)
    (hd : diff actual expected = some d) :
    histSum d.histogram =
      if dimensions actual = dimensions expected
      then (actual.width - 2) * (actual.height - 2)
      else max (pixelCount expected) (pixelCount actual) := by
  by_cases heq : dimensions expected = dimensions actual
  · rw [if_pos heq.symm]
    by_cases hsmall : expected.width < 2 ∨ expected.height < 2
    · rw [diff_none_of_small actual expected heq hsmall] at hd
      cases hd
    · push_neg at hsmall
      obtain ⟨hew, heh⟩ := dims_eq_iff.mp heq
      have h2w : 2 ≤ actual.width := by omega
      have h2h : 2 ≤ actual.height := by omega
      rw [diff_of_dims_eq actual expected _ _ heq
        (half_diff_eq_some expected actual hsmall.1 hsmall.2)
        (half_diff_eq_some actual expected h2w h2h)] at hd
      rw [← Option.some_inj.mp hd]
      have hbound : ∀ v ∈ combinedList
          { width := expected.width - 2, height := expected.height - 2
            mag := fun x y => mag_at expected actual x y }
          { width := actual.width - 2, height := actual.height - 2
            mag := fun x y => mag_at actual expected x y }, v < 256 := by
        intro v hv
        obtain ⟨x, y, -, -, hval⟩ := mem_combinedList.mp hv
        have hval2 : v = max (mag_at expected actual x y) (mag_at actual expected x y) := hval
        have hb255 : v ≤ 255 := hval2 ▸ Nat.max_le.mpr
          ⟨mag_at_le_255 expected actual x y, mag_at_le_255 actual expected x y⟩
        omega
      show histSum (histogramOfList (combinedList _ _)) = _
      rw [histSum_count _ hbound, combinedList_length]
      show (expected.width - 2) * (expected.height - 2) = _
      rw [hew, heh]
  · rw [if_neg fun hc => heq hc.symm]
    rw [diff_of_dims_ne actual expected heq] at hd
    rw [← Option.some_inj.mp hd]
    show (Finset.range 256).sum (fun m =>
      if m = 255 then max (pixelCount expected) (pixelCount actual) else 0) = _
    rw [Finset.sum_ite_eq' (Finset.range 256) 255
      (fun _ => max (pixelCount expected) (pixelCount actual))]
    simp

theorem diff_histogram_mass_witness :
    histSum (((diff threeByThree threeByThree).getD defaultDifference).histogram) = 1 :=
  (diff_histogram_mass threeByThree threeByThree
    ((diff threeByThree threeByThree).getD defaultDifference) rfl).trans (by decide)

end Rendiff
